import Mathlib

/-!
Verification of the diff-and-merge engine of `merge_html_mapping.py`.

The Python source is shallowly embedded: dictionaries become association
lists (`dictInsert` preserves the position of an existing key, exactly as
CPython dict assignment does), Python strings become `String`, and every
string primitive the source uses (`split("..")`, `int(...)`, `startswith`,
tuple comparison of sort keys) is re-implemented structurally over
`List Char` so that all definitions compute inside the kernel.
-/

namespace MergeHtml

/-- Character-level model of Python `s.split("..")`: non-overlapping,
left-to-right splitting of a character list on the two-character
separator `".."`. -/
def splitDotDot : List Char → List (List Char)
  | [] => [[]]
  | '.' :: '.' :: rest => [] :: splitDotDot rest
  | c :: rest =>
    match splitDotDot rest with
    | [] => [[c]]
    | h :: t => (c :: h) :: t

/-- Character-level model of Python `s.split(".")` restricted to the dot
separator, used to talk about the segments of a dotted element path. -/
def splitDots : List Char → List (List Char)
  | [] => [[]]
  | c :: rest =>
    let r := splitDots rest
    if c = '.' then [] :: r
    else
      match r with
      | [] => [[c]]
      | h :: t => (c :: h) :: t

/-- Whitespace characters that Python `int(...)` strips from both ends of
its argument (restricted to the ASCII range, which covers every string the
program manipulates). -/
def isPyWs (c : Char) : Bool :=
  c = ' ' ∨ c = '\t' ∨ c = '\n' ∨ c = '\r' ∨ c = '\x0b' ∨ c = '\x0c'

/-- Strip `isPyWs` characters from both ends of a character list. -/
def stripWs (l : List Char) : List Char :=
  ((l.dropWhile isPyWs).reverse.dropWhile isPyWs).reverse

/-- Tail of a Python integer literal: digits possibly separated by single
underscores, with no trailing underscore. -/
def digitsTail : List Char → Bool
  | [] => true
  | '_' :: c :: rest => c.isDigit && digitsTail rest
  | '_' :: [] => false
  | c :: rest => c.isDigit && digitsTail rest

/-- Valid body of a Python integer literal: at least one digit, then
`digitsTail`. -/
def digitsOk : List Char → Bool
  | [] => false
  | c :: rest => c.isDigit && digitsTail rest

/-- Numeric value of a digit string, skipping grouping underscores. -/
def digitsVal (l : List Char) : Nat :=
  (l.filter (fun c => c ≠ '_')).foldl (fun n c => n * 10 + (c.toNat - '0'.toNat)) 0

/-- Model of Python `int(s)` on a character list: strip whitespace, allow
one optional sign, then a digit string with optional single grouping
underscores; any other shape raises `ValueError`, modelled as `none`. -/
def pyToInt : List Char → Option Int :=
  fun l =>
    match stripWs l with
    | '+' :: rest => if digitsOk rest then some (digitsVal rest) else none
    | '-' :: rest => if digitsOk rest then some (-(digitsVal rest : Int)) else none
    | rest => if digitsOk rest then some (digitsVal rest) else none

/-- Boolean lexicographic comparison of character lists by code point;
this is exactly how Python compares the strings used as sort-key
components. -/
def lexLe : List Char → List Char → Bool
  | [], _ => true
  | _ :: _, [] => false
  | a :: as, b :: bs =>
    a.toNat < b.toNat || (a.toNat == b.toNat && lexLe as bs)

/-- Boolean prefix test on character lists, the model of Python
`str.startswith`. -/
def isPre : List Char → List Char → Bool
  | [], _ => true
  | _ :: _, [] => false
  | a :: as, b :: bs => a == b && isPre as bs

/-- Boolean substring test on character lists, the model of the Python
`in` operator on strings (used to state the presence or absence of an
annotation inside a description). -/
def containsChars (pat l : List Char) : Bool :=
  l.tails.any (fun t => isPre pat t)

/-- One row of a parsed schema snapshot, the value stored under a path key
in the dictionary returned by `parse_snapshot_table`: the Python dict
`\x7b"card": ..., "type": ..., "is_mandatory": ...\x7d`. -/
structure ElemRecord where
  card : String
  type : String
  is_mandatory : Bool
deriving DecidableEq, Repr

/-- A schema snapshot: a Python dict from dotted path to `ElemRecord`,
modelled as an association list whose key order is the insertion order. -/
abbrev Snapshot := List (String × ElemRecord)

/-- Lookup of the first binding of a key, the model of Python `d[k]` and
`d.get(k)` (a dict holds at most one binding per key). -/
def dictLookup {α : Type} : List (String × α) → String → Option α
  | [], _ => none
  | e :: rest, k => if e.1 = k then some e.2 else dictLookup rest k

/-- Model of Python `d[k] = v`: replace the value of an existing binding
in place (CPython keeps the original position of an updated key), else
append a new binding at the end. -/
def dictInsert {α : Type} : List (String × α) → String → α → List (String × α)
  | [], k, v => [(k, v)]
  | e :: rest, k, v => if e.1 = k then (k, v) :: rest else e :: dictInsert rest k v

/-- Model of Python `k in d`. -/
def hasKey {α : Type} (m : List (String × α)) (k : String) : Bool :=
  (dictLookup m k).isSome

/-- Keys of an association list, in order. -/
def keysOf {α : Type} (m : List (String × α)) : List String :=
  m.map Prod.fst

/-- One detected structural difference: the Python dict
`\x7b"severity": ..., "type": ..., "element": ..., "desc": ...\x7d`
appended to `changes` by `detect_breaking_changes`. -/
structure Change where
  severity : String
  type : String
  element : String
  desc : String
deriving DecidableEq, Repr

/-- The record appended for a path present in the previous snapshot only
(lines 290-301 of the source). -/
def removedChange (path : String) (r : ElemRecord) : Change :=
  if r.is_mandatory then
    ⟨"CRITICAL", "Removed", path, "CRITICAL: Mandatory element removed!"⟩
  else
    ⟨"INFO", "Removed", path, "Element removed."⟩

/-- The record appended for a path present in the current snapshot only
(lines 303-315 of the source). -/
def newChange (path : String) (r : ElemRecord) : Change :=
  if r.is_mandatory then
    ⟨"BREAKING", "New", path, "BREAKING: New mandatory element added."⟩
  else
    ⟨"INFO", "New", path, "New element added."⟩

/-- Joint success of the four statements inside the `try` block at lines
327-331: `int(card.split("..")[0])` (`min`) and `card.split("..")[1]`
(`max`) for one side.  `none` corresponds to the caught
`ValueError`/`IndexError`; the block succeeds iff both sides return
`some`, and the order in which the four statements would raise is
irrelevant because the handler discards all partial results. -/
def cardMinMax (card : String) : Option (Int × String) :=
  match splitDotDot card.data with
  | p0 :: p1 :: _ => (pyToInt p0).map (fun mn => (mn, String.mk p1))
  | _ => none

/-- The `Changed` record built at lines 320-349 for a path present in
both snapshots whose cardinality strings differ: base description and
`INFO` severity, then the `if prev_min < curr_min / elif prev_max == "*"
and curr_max != "*" / elif prev_min > curr_min` chain, with the whole
chain skipped when parsing either side fails. -/
def classifyChanged (path prevCard currCard : String) : Change :=
  let desc0 := "Cardinality changed: " ++ prevCard ++ " &rarr; " ++ currCard
  match cardMinMax prevCard, cardMinMax currCard with
  | some (prevMin, prevMax), some (currMin, currMax) =>
    if prevMin < currMin then
      ⟨"BREAKING", "Changed", path, desc0 ++ " (Tightened: Optional -> Mandatory)"⟩
    else if prevMax = "*" ∧ currMax ≠ "*" then
      ⟨"BREAKING", "Changed", path, desc0 ++ " (Tightened: List -> Single)"⟩
    else if prevMin > currMin then
      ⟨"INFO", "Changed", path, desc0 ++ " (Loosened: Mandatory -> Optional)"⟩
    else
      ⟨"INFO", "Changed", path, desc0⟩
  | _, _ => ⟨"INFO", "Changed", path, desc0⟩

/-- The rank closure `get_sort_rank` at lines 351-358. -/
def get_sort_rank (c : Change) : Nat :=
  if c.severity = "CRITICAL" then 1
  else if c.severity = "BREAKING" then 2
  else if (c.severity = "INFO" ∨ c.severity = "WARNING") ∧ c.type ≠ "New" then 3
  else if c.type = "New" then 4
  else 5

/-- Boolean comparison by the sort key `(get_sort_rank(x), x["element"])`
used by `changes.sort` at line 360: Python compares key tuples
lexicographically and strings by code point. -/
def changeLe (a b : Change) : Bool :=
  get_sort_rank a < get_sort_rank b ||
    (get_sort_rank a == get_sort_rank b && lexLe a.element.data b.element.data)

/-- The sort-key order as a relation, for `List.insertionSort`. -/
def ChangeLE (a b : Change) : Prop := changeLe a b = true

instance : DecidableRel ChangeLE := fun _ _ => inferInstanceAs (Decidable (_ = true))

/-- The set comprehension at lines 270-274: the elements of all
`Removed`/`New` records of a change list (the Python `set` is only used
through `any`, for which a list is extensionally equivalent). -/
def removedOrNewOf (changes : List Change) : List String :=
  (changes.filter (fun c => c.type = "Removed" ∨ c.type = "New")).map (fun c => c.element)

/-- Model of `suppress_child_changes` (lines 269-284): keep exactly the
records whose element does not start with `parent + "."` for any element
of a `Removed`/`New` record. -/
def suppress_child_changes (changes : List Change) : List Change :=
  changes.filter
    (fun c =>
      !((removedOrNewOf changes).any (fun parent => isPre (parent.data ++ ['.']) c.element.data)))

/-- The `Removed` loop (lines 289-301): one record for every entry of the
previous snapshot whose path is not a key of the current snapshot, in
dictionary order. -/
def removedOf (prev_struct curr_struct : Snapshot) : List Change :=
  prev_struct.filterMap
    (fun e => if hasKey curr_struct e.1 then none else some (removedChange e.1 e.2))

/-- The `New` loop (lines 303-315): one record for every entry of the
current snapshot whose path is not a key of the previous snapshot. -/
def addedOf (prev_struct curr_struct : Snapshot) : List Change :=
  curr_struct.filterMap
    (fun e => if hasKey prev_struct e.1 then none else some (newChange e.1 e.2))

/-- The `Changed` loop (lines 317-349): one record for every entry of the
previous snapshot whose path is a key of the current snapshot and whose
cardinality string differs from the current one. -/
def changedOf (prev_struct curr_struct : Snapshot) : List Change :=
  prev_struct.filterMap
    (fun e =>
      match dictLookup curr_struct e.1 with
      | some rCurr =>
        if e.2.card ≠ rCurr.card then some (classifyChanged e.1 e.2.card rCurr.card)
        else none
      | none => none)

/-- Model of `detect_breaking_changes` (lines 286-365).  The three
dictionary loops append `Removed`, `New` and `Changed` records in that
order, the list is sorted by `(get_sort_rank, element)` (Python
`list.sort` is stable; so is `insertionSort`), and child suppression is
applied when the externally supplied configuration flag
`children_hidden` (default `True`) is set. -/
def detect_breaking_changes (prev_struct curr_struct : Snapshot)
    (children_hidden : Bool) : List Change :=
  let changes :=
    (removedOf prev_struct curr_struct ++ addedOf prev_struct curr_struct ++
      changedOf prev_struct curr_struct).insertionSort ChangeLE
  if children_hidden then suppress_child_changes changes else changes

/-!
Structure extractor: `parse_snapshot_table` (lines 367-422).
The relevant content of one `<td>` cell is abstracted into `Cell`:
the count of hierarchy-marker images (`<img src="tbl_*.png">`) it
contains, the stripped text of its first `<a>` descendant if it has one,
its non-empty stripped text fragments (BeautifulSoup `stripped_strings`
yields fragments that are already stripped and non-empty, so the
comprehension at line 400 reduces to keeping the non-empty ones), and its
`get_text(strip=True)` value.  A table row is its list of `<td>` cells.
-/

/-- Abstraction of one `<td>` cell of the snapshot table. -/
structure Cell where
  tblImgs : Nat
  link : Option String
  fragments : List String
  text : String
deriving DecidableEq, Repr

/-- A table row: its list of `<td>` cells. -/
abbrev Row := List Cell

/-- The element name of a row (lines 395-402): the stripped text of the
first hyperlink if the cell has one, else the last non-empty text
fragment, else the empty string. -/
def localName (c : Cell) : String :=
  match c.link with
  | some t => t
  | none => ((c.fragments.filter (fun t => t ≠ "")).getLast?).getD ""

/-- The mandatory flag computed at line 419:
`card.split("..")[0] != "0"`. -/
def isMandatoryOf (card : String) : Bool :=
  String.mk ((splitDotDot card.data).headD []) ≠ "0"

/-- Acceptance test for one row, combining the three `continue` guards of
the loop body (fewer than 4 cells at line 384, zero marker images at
line 392, empty element name at line 404): `some (depth, name)` when the
row contributes an element. -/
def rowKey (row : Row) : Option (Nat × String) :=
  match row with
  | c0 :: _ :: _ :: _ :: _ =>
    if c0.tblImgs = 0 then none
    else
      let name := localName c0
      if name = "" then none else some (c0.tblImgs, name)
  | _ => none

/-- Model of `".".join(path_stack)`. -/
def joinDot : List String → String
  | [] => ""
  | [s] => s
  | s :: rest => s ++ "." ++ joinDot rest

/-- One iteration of the row loop (lines 382-420).  The
`while len(path_stack) >= desired_path_length: path_stack.pop()` loop
followed by the push keeps exactly the first `depth - 1` entries of the
stack and appends the new name. -/
def snapStep (st : List String × Snapshot) (row : Row) : List String × Snapshot :=
  match rowKey row with
  | none => st
  | some (d, name) =>
    match row with
    | _ :: _ :: c2 :: c3 :: _ =>
      let newStack := st.1.take (d - 1) ++ [name]
      (newStack,
        dictInsert st.2 (joinDot newStack) ⟨c2.text, c3.text, isMandatoryOf c2.text⟩)
    | _ => st

/-- Model of `parse_snapshot_table` applied to the rows of the snapshot
table (the surrounding lookups of the `tbl-snap-inner` container and of
the `<table>` element return the empty mapping when absent and are not
modelled further: the claims quantify over the table rows). -/
def parse_snapshot_table (rows : List Row) : Snapshot :=
  (rows.foldl snapStep ([], [])).2

/-- Emission trace of the extractor: for every accepted row, its
marker-derived depth, the full dotted path it stores, and the record it
stores there, in row order.  This follows exactly the stack discipline of
`snapStep`. -/
def emitTraceFrom (stack : List String) : List Row → List (Nat × String × ElemRecord)
  | [] => []
  | row :: rs =>
    match rowKey row with
    | none => emitTraceFrom stack rs
    | some (d, name) =>
      match row with
      | _ :: _ :: c2 :: c3 :: _ =>
        let newStack := stack.take (d - 1) ++ [name]
        (d, joinDot newStack, ⟨c2.text, c3.text, isMandatoryOf c2.text⟩) ::
          emitTraceFrom newStack rs
      | _ => emitTraceFrom stack rs

/-- Validity of a hierarchy table, relative to the current stack depth
`n`: every accepted row has a marker depth that exceeds the depth of the
deepest live ancestor by at most one, and an element name that contains
no dot (so that the name is a single path segment). -/
def validFrom (n : Nat) : List Row → Bool
  | [] => true
  | row :: rs =>
    match rowKey row with
    | none => validFrom n rs
    | some (d, name) =>
      decide (d ≤ n + 1) && decide ('.' ∉ name.data) && validFrom (min n (d - 1) + 1) rs

/-- The dot-separated segments of a path string. -/
def pathSegments (s : String) : List String :=
  (splitDots s.data).map (fun cs => String.mk cs)

/-- The record stored under a path by the latest emission of the trace
for that path, if any: repeated assignments to `structure[full_path]`
keep the last one. -/
def lastWins : List (Nat × String × ElemRecord) → String → Option ElemRecord
  | [], _ => none
  | e :: tr, p =>
    match lastWins tr p with
    | some r => some r
    | none => if e.2.1 = p then some e.2.2 else none

/-!
Namespace isolator: `rewrite_ids` (lines 106-163).  A DOM fragment is
abstracted as the list of its tags in document order; of each tag the
embedding keeps whether it is an `<a>` element, its `id` attribute, its
`name` attribute and its `href` attribute.  Inline event-handler
attributes (`on*`) are rewritten by the source as free text; that pass
touches no `id`, `name` or `href` attribute and no entry of the
identifier map, and is not part of the isolation claims, so it is not
modelled.
-/

/-- Abstraction of one tag of a DOM fragment. -/
structure Tag where
  isA : Bool
  id : Option String
  nameAttr : Option String
  href : Option String
deriving DecidableEq, Repr

/-- One dictionary update of the identifier-map construction:
`id_map[old] = prefix + old` for the identifier contributed by a tag, if
any. -/
def idMapStep (pfx : String) (contrib : Tag → Option String)
    (m : List (String × String)) (tag : Tag) : List (String × String) :=
  match contrib tag with
  | some i => dictInsert m i (pfx ++ i)
  | none => m

/-- The identifier map built by the first two passes of `rewrite_ids`:
`old -> prefix + old` for every element carrying an `id` attribute
(BeautifulSoup `find_all(id=True)` matches any present `id`, empty or
not), then for every `<a>` carrying a `name` attribute
(`find_all("a", attrs=...)`), in document order. -/
def buildIdMap (block : List Tag) (pfx : String) : List (String × String) :=
  block.foldl (idMapStep pfx (fun tag => if tag.isA then tag.nameAttr else none))
    (block.foldl (idMapStep pfx (fun tag => tag.id)) [])

/-- The `href` rewriting of pass 4 (lines 157-163): an `<a>` `href` of
the form `#target` with `len(href) > 1` whose target is a key of the
identifier map is rewritten to `#` followed by the prefixed target;
every other `href` is left unchanged. -/
def rewriteHref (idMap : List (String × String)) (pfx : String) (isA : Bool)
    (href : Option String) : Option String :=
  if isA then
    match href with
    | some h =>
      match h.data with
      | '#' :: c :: rest =>
        if hasKey idMap (String.mk (c :: rest)) then
          some (String.mk ('#' :: (pfx ++ String.mk (c :: rest)).data))
        else some h
      | _ => some h
    | none => none
  else href

/-- The per-tag rewriting performed by `rewrite_ids`: prefix the `id`
attribute (pass 1), prefix the `name` attribute of an `<a>` element
(pass 2), and rewrite internal anchor links (pass 4). -/
def rewriteTag (idMap : List (String × String)) (pfx : String) (tag : Tag) : Tag :=
  { isA := tag.isA
    id := tag.id.map (fun i => pfx ++ i)
    nameAttr :=
      if tag.isA then tag.nameAttr.map (fun n => pfx ++ n) else tag.nameAttr
    href := rewriteHref idMap pfx tag.isA tag.href }

/-- Model of `rewrite_ids` (lines 106-163): build the identifier map,
then rewrite every tag.  The mutated fragment and the map are
returned. -/
def rewrite_ids (block : List Tag) (pfx : String) : List Tag × List (String × String) :=
  let idMap := buildIdMap block pfx
  (block.map (rewriteTag idMap pfx), idMap)

/-- A same-document link target is resolvable in a fragment when some tag
carries it as its `id` or, for an `<a>` element, as its `name`.  The
empty fragment identifier `#` designates the top of the document, not an
element, so only non-empty identifiers are resolvable targets. -/
def resolvable (block : List Tag) (t : String) : Bool :=
  t ≠ "" && block.any (fun tag => tag.id = some t || (tag.isA && tag.nameAttr = some t))

/-!
Helper lemmas about the dictionary model.
-/

theorem dictLookup_dictInsert {α : Type} (m : List (String × α)) (k p : String) (v : α) :
    dictLookup (dictInsert m k v) p = if p = k then some v else dictLookup m p := by
  induction m with
  | nil =>
    simp only [dictInsert, dictLookup]
    by_cases h : p = k
    · simp [h]
    · rw [if_neg (fun hkp => h hkp.symm), if_neg h]
  | cons e rest ih =>
    simp only [dictInsert]
    by_cases h : e.1 = k
    · subst h
      simp only [if_pos rfl, dictLookup]
      by_cases h2 : p = e.1
      · simp [h2]
      · rw [if_neg (fun he => h2 he.symm), if_neg h2, if_neg (fun he => h2 he.symm)]
    · simp only [if_neg h, dictLookup, ih]
      by_cases h2 : e.1 = p
      · have hpk : ¬p = k := fun hpk => h (h2.trans hpk)
        simp [h2, hpk]
      · simp [h2]

theorem hasKey_of_mem {α : Type} {m : List (String × α)} {k : String} {v : α}
    (h : (k, v) ∈ m) : hasKey m k = true := by
  induction m with
  | nil => cases h
  | cons e rest ih =>
    rcases List.mem_cons.1 h with h1 | h1
    · subst h1; simp [hasKey, dictLookup]
    · simp only [hasKey, dictLookup]
      by_cases he : e.1 = k
      · simp [he]
      · simpa [he, hasKey] using ih h1

theorem mem_of_dictLookup {α : Type} {m : List (String × α)} {k : String} {v : α}
    (h : dictLookup m k = some v) : (k, v) ∈ m := by
  induction m with
  | nil => simp [dictLookup] at h
  | cons e rest ih =>
    simp only [dictLookup] at h
    by_cases he : e.1 = k
    · rw [if_pos he] at h
      obtain ⟨a, b⟩ := e
      cases he
      cases Option.some.inj h
      exact List.mem_cons_self _ _
    · rw [if_neg he] at h
      exact List.mem_cons_of_mem _ (ih h)

theorem hasKey_iff_mem_keysOf {α : Type} {m : List (String × α)} {k : String} :
    hasKey m k = true ↔ k ∈ keysOf m := by
  induction m with
  | nil => simp [hasKey, dictLookup, keysOf]
  | cons e rest ih =>
    simp only [hasKey, dictLookup, keysOf, List.map_cons, List.mem_cons]
    by_cases he : e.1 = k
    · simp [he]
    · simp only [if_neg he]
      constructor
      · intro h
        exact Or.inr (ih.1 h)
      · rintro (h | h)
        · exact absurd h.symm he
        · exact ih.2 h

theorem mem_dictInsert {α : Type} {m : List (String × α)} {k : String} {v : α}
    {e : String × α} (h : e ∈ dictInsert m k v) : e = (k, v) ∨ e ∈ m := by
  induction m with
  | nil => simpa [dictInsert] using h
  | cons f rest ih =>
    simp only [dictInsert] at h
    by_cases hf : f.1 = k
    · rw [if_pos hf] at h
      rcases List.mem_cons.1 h with h1 | h1
      · exact Or.inl h1
      · exact Or.inr (List.mem_cons_of_mem _ h1)
    · rw [if_neg hf] at h
      rcases List.mem_cons.1 h with h1 | h1
      · exact Or.inr (h1 ▸ List.mem_cons_self _ _)
      · rcases ih h1 with h2 | h2
        · exact Or.inl h2
        · exact Or.inr (List.mem_cons_of_mem _ h2)

theorem hasKey_dictInsert {α : Type} (m : List (String × α)) (k p : String) (v : α) :
    hasKey (dictInsert m k v) p = true ↔ p = k ∨ hasKey m p = true := by
  simp only [hasKey, dictLookup_dictInsert]
  by_cases h : p = k <;> simp [h]

/-!
Helper lemmas about the code-point orders used for sort keys.
-/

theorem lexLe_total (a b : List Char) : lexLe a b = true ∨ lexLe b a = true := by
  induction a generalizing b with
  | nil => exact Or.inl rfl
  | cons x xs ih =>
    cases b with
    | nil => exact Or.inr rfl
    | cons y ys =>
      simp only [lexLe, Bool.or_eq_true, Bool.and_eq_true, decide_eq_true_eq, beq_iff_eq]
      rcases Nat.lt_trichotomy x.toNat y.toNat with h | h | h
      · exact Or.inl (Or.inl h)
      · rcases ih ys with h2 | h2
        · exact Or.inl (Or.inr ⟨h, h2⟩)
        · exact Or.inr (Or.inr ⟨h.symm, h2⟩)
      · exact Or.inr (Or.inl h)

theorem lexLe_trans : ∀ {a b c : List Char},
    lexLe a b = true → lexLe b c = true → lexLe a c = true
  | [], _, _, _, _ => rfl
  | _ :: _, [], _, hab, _ => by simp [lexLe] at hab
  | _ :: _, _ :: _, [], _, hbc => by simp [lexLe] at hbc
  | x :: xs, y :: ys, z :: zs, hab, hbc => by
    simp only [lexLe, Bool.or_eq_true, Bool.and_eq_true, decide_eq_true_eq,
      beq_iff_eq] at hab hbc ⊢
    rcases hab with h | ⟨he, ht⟩ <;> rcases hbc with h2 | ⟨he2, ht2⟩
    · exact Or.inl (h.trans h2)
    · exact Or.inl (he2 ▸ h)
    · exact Or.inl (he ▸ h2)
    · exact Or.inr ⟨he.trans he2, lexLe_trans ht ht2⟩

instance : IsTotal Change ChangeLE where
  total a b := by
    simp only [ChangeLE, changeLe, Bool.or_eq_true, Bool.and_eq_true, decide_eq_true_eq,
      beq_iff_eq]
    rcases Nat.lt_trichotomy (get_sort_rank a) (get_sort_rank b) with h | h | h
    · exact Or.inl (Or.inl h)
    · rcases lexLe_total a.element.data b.element.data with h2 | h2
      · exact Or.inl (Or.inr ⟨h, h2⟩)
      · exact Or.inr (Or.inr ⟨h.symm, h2⟩)
    · exact Or.inr (Or.inl h)

instance : IsTrans Change ChangeLE where
  trans a b c hab hbc := by
    simp only [ChangeLE, changeLe, Bool.or_eq_true, Bool.and_eq_true, decide_eq_true_eq,
      beq_iff_eq] at hab hbc ⊢
    rcases hab with h | ⟨he, ht⟩ <;> rcases hbc with h2 | ⟨he2, ht2⟩
    · exact Or.inl (h.trans h2)
    · exact Or.inl (he2 ▸ h)
    · exact Or.inl (he ▸ h2)
    · exact Or.inr ⟨he.trans he2, lexLe_trans ht ht2⟩

/-!
Shape and membership lemmas for the three diff loops.
-/

theorem removedChange_element (k : String) (v : ElemRecord) :
    (removedChange k v).element = k := by
  unfold removedChange; split <;> rfl

theorem removedChange_type (k : String) (v : ElemRecord) :
    (removedChange k v).type = "Removed" := by
  unfold removedChange; split <;> rfl

theorem removedChange_severity (k : String) (v : ElemRecord) :
    (removedChange k v).severity = if v.is_mandatory then "CRITICAL" else "INFO" := by
  unfold removedChange
  by_cases h : v.is_mandatory <;> simp [h]

theorem newChange_element (k : String) (v : ElemRecord) :
    (newChange k v).element = k := by
  unfold newChange; split <;> rfl

theorem newChange_type (k : String) (v : ElemRecord) :
    (newChange k v).type = "New" := by
  unfold newChange; split <;> rfl

theorem newChange_severity (k : String) (v : ElemRecord) :
    (newChange k v).severity = if v.is_mandatory then "BREAKING" else "INFO" := by
  unfold newChange
  by_cases h : v.is_mandatory <;> simp [h]

theorem classifyChanged_element (k a b : String) :
    (classifyChanged k a b).element = k := by
  unfold classifyChanged
  rcases cardMinMax a with _ | ⟨pmin, pmax⟩ <;> rcases cardMinMax b with _ | ⟨cmin, cmax⟩ <;>
    first
    | rfl
    | (dsimp only; split_ifs <;> rfl)

theorem classifyChanged_type (k a b : String) :
    (classifyChanged k a b).type = "Changed" := by
  unfold classifyChanged
  rcases cardMinMax a with _ | ⟨pmin, pmax⟩ <;> rcases cardMinMax b with _ | ⟨cmin, cmax⟩ <;>
    first
    | rfl
    | (dsimp only; split_ifs <;> rfl)

theorem mem_removedOf {prev curr : Snapshot} {c : Change} :
    c ∈ removedOf prev curr ↔
      ∃ e ∈ prev, hasKey curr e.1 = false ∧ removedChange e.1 e.2 = c := by
  simp only [removedOf, List.mem_filterMap]
  constructor
  · rintro ⟨e, he, hc⟩
    by_cases hk : hasKey curr e.1
    · rw [if_pos hk] at hc; cases hc
    · rw [if_neg hk] at hc
      exact ⟨e, he, Bool.not_eq_true _ ▸ hk, Option.some.inj hc⟩
  · rintro ⟨e, he, hk, hc⟩
    refine ⟨e, he, ?_⟩
    rw [if_neg (by simp [hk]), hc]

theorem mem_addedOf {prev curr : Snapshot} {c : Change} :
    c ∈ addedOf prev curr ↔
      ∃ e ∈ curr, hasKey prev e.1 = false ∧ newChange e.1 e.2 = c := by
  simp only [addedOf, List.mem_filterMap]
  constructor
  · rintro ⟨e, he, hc⟩
    by_cases hk : hasKey prev e.1
    · rw [if_pos hk] at hc; cases hc
    · rw [if_neg hk] at hc
      exact ⟨e, he, Bool.not_eq_true _ ▸ hk, Option.some.inj hc⟩
  · rintro ⟨e, he, hk, hc⟩
    refine ⟨e, he, ?_⟩
    rw [if_neg (by simp [hk]), hc]

theorem mem_changedOf {prev curr : Snapshot} {c : Change} :
    c ∈ changedOf prev curr ↔
      ∃ e ∈ prev, ∃ rCurr, dictLookup curr e.1 = some rCurr ∧ e.2.card ≠ rCurr.card ∧
        classifyChanged e.1 e.2.card rCurr.card = c := by
  simp only [changedOf, List.mem_filterMap]
  constructor
  · rintro ⟨e, he, hc⟩
    rcases hl : dictLookup curr e.1 with _ | rCurr <;> rw [hl] at hc <;> dsimp only at hc
    · cases hc
    · by_cases hcard : e.2.card = rCurr.card
      · rw [if_neg (not_not_intro hcard)] at hc; cases hc
      · rw [if_pos hcard] at hc
        exact ⟨e, he, rCurr, hl, hcard, Option.some.inj hc⟩
  · rintro ⟨e, he, rCurr, hl, hcard, hc⟩
    refine ⟨e, he, ?_⟩
    rw [hl]
    dsimp only
    rw [if_pos hcard, hc]

theorem detect_false_eq (prev curr : Snapshot) :
    detect_breaking_changes prev curr false =
      (removedOf prev curr ++ addedOf prev curr ++ changedOf prev curr).insertionSort
        ChangeLE := rfl

theorem detect_true_eq (prev curr : Snapshot) :
    detect_breaking_changes prev curr true =
      suppress_child_changes (detect_breaking_changes prev curr false) := rfl

theorem mem_detect_false {prev curr : Snapshot} {c : Change} :
    c ∈ detect_breaking_changes prev curr false ↔
      c ∈ removedOf prev curr ∨ c ∈ addedOf prev curr ∨ c ∈ changedOf prev curr := by
  rw [detect_false_eq]
  simp [List.mem_insertionSort, List.mem_append, or_assoc]

theorem mem_suppress {changes : List Change} {c : Change} :
    c ∈ suppress_child_changes changes ↔
      c ∈ changes ∧
        ∀ parent ∈ removedOrNewOf changes,
          isPre (parent.data ++ ['.']) c.element.data = false := by
  unfold suppress_child_changes
  rw [List.mem_filter]
  constructor
  · rintro ⟨h1, h2⟩
    refine ⟨h1, fun parent hp => ?_⟩
    cases hb : isPre (parent.data ++ ['.']) c.element.data
    · rfl
    · rw [List.any_eq_true.2 ⟨parent, hp, hb⟩] at h2
      cases h2
  · rintro ⟨h1, h2⟩
    refine ⟨h1, ?_⟩
    have hall :
        (removedOrNewOf changes).any
            (fun parent => isPre (parent.data ++ ['.']) c.element.data) = false := by
      cases hb : (removedOrNewOf changes).any
          (fun parent => isPre (parent.data ++ ['.']) c.element.data)
      · rfl
      · obtain ⟨parent, hp, hpre⟩ := List.any_eq_true.1 hb
        rw [h2 parent hp] at hpre
        cases hpre
    rw [hall]
    rfl

/-!
Counting lemmas, used for the exactly-one-record properties.
-/

theorem countP_eq_one_of_nodup_keys {α : Type} (l : List (String × α)) (path : String)
    (q : String × α → Bool) (hq : ∀ e, q e = true → e.1 = path)
    (hnd : (l.map Prod.fst).Nodup) (e0 : String × α) (hmem : e0 ∈ l) (hq0 : q e0 = true) :
    l.countP q = 1 := by
  induction l with
  | nil => cases hmem
  | cons e rest ih =>
    rw [List.map_cons, List.nodup_cons] at hnd
    cases hqe : q e
    · rw [List.countP_cons_of_neg _ _ (by simp [hqe])]
      rcases List.mem_cons.1 hmem with h1 | h1
      · rw [← h1] at hqe; rw [hq0] at hqe; cases hqe
      · exact ih hnd.2 h1
    · rw [List.countP_cons_of_pos _ _ (by simp [hqe])]
      have hzero : rest.countP q = 0 := by
        rw [List.countP_eq_zero]
        intro x hx hqx
        apply hnd.1
        rw [hq e hqe, ← hq x hqx]
        exact List.mem_map_of_mem Prod.fst hx
      rw [hzero]

theorem countP_removedOf_eq_one {prev curr : Snapshot} {path : String} {r : ElemRecord}
    (hnd : (keysOf prev).Nodup) (hmem : (path, r) ∈ prev) (hk : hasKey curr path = false) :
    (removedOf prev curr).countP
      (fun c => c.type == "Removed" && c.element == path) = 1 := by
  rw [removedOf, List.countP_filterMap]
  refine countP_eq_one_of_nodup_keys prev path _ ?_ hnd (path, r) hmem ?_
  · intro e he
    by_cases h : hasKey curr e.1
    · rw [if_pos h] at he; cases he
    · rw [if_neg h] at he
      simpa [removedChange_type, removedChange_element] using he
  · simp [hk, removedChange_type, removedChange_element]

theorem countP_addedOf_eq_one {prev curr : Snapshot} {path : String} {r : ElemRecord}
    (hnd : (keysOf curr).Nodup) (hmem : (path, r) ∈ curr) (hk : hasKey prev path = false) :
    (addedOf prev curr).countP
      (fun c => c.type == "New" && c.element == path) = 1 := by
  rw [addedOf, List.countP_filterMap]
  refine countP_eq_one_of_nodup_keys curr path _ ?_ hnd (path, r) hmem ?_
  · intro e he
    by_cases h : hasKey prev e.1
    · rw [if_pos h] at he; cases he
    · rw [if_neg h] at he
      simpa [newChange_type, newChange_element] using he
  · simp [hk, newChange_type, newChange_element]

theorem countP_removedOf_zero_of_hasKey {prev curr : Snapshot} {path : String}
    (hk : hasKey curr path = true) :
    (removedOf prev curr).countP (fun c => c.element == path) = 0 := by
  rw [List.countP_eq_zero]
  intro c hc hcp
  obtain ⟨e, _, hke, hce⟩ := mem_removedOf.1 hc
  rw [← hce, removedChange_element] at hcp
  rw [beq_iff_eq] at hcp
  rw [hcp] at hke
  rw [hk] at hke
  cases hke

theorem countP_addedOf_zero_of_hasKey {prev curr : Snapshot} {path : String}
    (hk : hasKey prev path = true) :
    (addedOf prev curr).countP (fun c => c.element == path) = 0 := by
  rw [List.countP_eq_zero]
  intro c hc hcp
  obtain ⟨e, _, hke, hce⟩ := mem_addedOf.1 hc
  rw [← hce, newChange_element] at hcp
  rw [beq_iff_eq] at hcp
  rw [hcp] at hke
  rw [hk] at hke
  cases hke

theorem mem_eq_of_nodup_keys {α : Type} {l : List (String × α)}
    (hnd : (l.map Prod.fst).Nodup) {e1 e2 : String × α}
    (h1 : e1 ∈ l) (h2 : e2 ∈ l) (hk : e1.1 = e2.1) : e1 = e2 := by
  induction l with
  | nil => cases h1
  | cons e rest ih =>
    rw [List.map_cons, List.nodup_cons] at hnd
    rcases List.mem_cons.1 h1 with ha | ha <;> rcases List.mem_cons.1 h2 with hb | hb
    · rw [ha, hb]
    · exact absurd (by rw [← ha, hk]; exact List.mem_map_of_mem Prod.fst hb) hnd.1
    · exact absurd (by rw [← hb, ← hk]; exact List.mem_map_of_mem Prod.fst ha) hnd.1
    · exact ih hnd.2 ha hb

theorem countP_changedOf_zero_of_card_eq {prev curr : Snapshot} {path : String}
    {rPrev rCurr : ElemRecord} (hnd : (keysOf prev).Nodup)
    (hp : (path, rPrev) ∈ prev) (hc : dictLookup curr path = some rCurr)
    (hcard : rPrev.card = rCurr.card) :
    (changedOf prev curr).countP (fun c => c.element == path) = 0 := by
  rw [List.countP_eq_zero]
  intro c hcm hcp
  obtain ⟨e, he, rc, hlook, hne, hcc⟩ := mem_changedOf.1 hcm
  rw [← hcc, classifyChanged_element, beq_iff_eq] at hcp
  have heq : e = (path, rPrev) := mem_eq_of_nodup_keys hnd he hp hcp
  rw [heq] at hlook hne
  have hlook2 : dictLookup curr path = some rc := hlook
  rw [hc] at hlook2
  have hne2 : rPrev.card ≠ rc.card := hne
  rw [Option.some.inj hlook2] at hcard
  exact hne2 hcard

/-!
Helper lemmas about strings, path segments and the extractor.
-/

theorem strMk_data (s : String) : String.mk s.data = s := by
  cases s; rfl

theorem data_ne_nil {s : String} (h : s ≠ "") : s.data ≠ [] := by
  intro hd
  apply h
  rw [← strMk_data s, hd]

theorem splitDots_ne_nil (l : List Char) : splitDots l ≠ [] := by
  cases l with
  | nil => simp [splitDots]
  | cons c rest =>
    simp only [splitDots]
    by_cases h : c = '.'
    · simp [h]
    · rw [if_neg h]
      cases splitDots rest <;> simp

theorem splitDots_seg : ∀ (seg l : List Char), '.' ∉ seg →
    splitDots (seg ++ l) =
      match splitDots l with
      | [] => [seg]
      | h :: t => (seg ++ h) :: t := by
  intro seg
  induction seg with
  | nil =>
    intro l _
    cases hs : splitDots l with
    | nil => exact absurd hs (splitDots_ne_nil l)
    | cons h t => simpa using hs
  | cons c cs ih =>
    intro l hdot
    have hc : c ≠ '.' := fun h => hdot (h ▸ List.mem_cons_self c cs)
    have hcs : '.' ∉ cs := fun h => hdot (List.mem_cons_of_mem c h)
    cases hs : splitDots l with
    | nil => exact absurd hs (splitDots_ne_nil l)
    | cons h t =>
      show splitDots (c :: (cs ++ l)) = ((c :: cs) ++ h) :: t
      simp only [splitDots, if_neg hc]
      rw [ih l hcs, hs]
      simp

theorem joinDot_cons_cons (s y : String) (rest : List String) :
    joinDot (s :: y :: rest) = s ++ "." ++ joinDot (y :: rest) := rfl

theorem joinDot_segments : ∀ (stack : List String), stack ≠ [] →
    (∀ s ∈ stack, '.' ∉ s.data) →
    splitDots (joinDot stack).data = stack.map String.data := by
  intro stack
  induction stack with
  | nil => intro h; cases h rfl
  | cons x rest ih =>
    intro _ hgood
    cases rest with
    | nil =>
      show splitDots x.data = [x.data]
      have hx := splitDots_seg x.data [] (hgood x (List.mem_cons_self x []))
      rw [List.append_nil] at hx
      rw [hx]
      simp [splitDots]
    | cons y t =>
      rw [joinDot_cons_cons, List.map_cons]
      have hx : '.' ∉ x.data := hgood x (List.mem_cons_self _ _)
      have hdata : (x ++ "." ++ joinDot (y :: t)).data =
          x.data ++ ('.' :: (joinDot (y :: t)).data) := by
        rw [String.data_append, String.data_append, List.append_assoc]
        rfl
      rw [hdata, splitDots_seg x.data _ hx]
      have hrest : splitDots ('.' :: (joinDot (y :: t)).data) =
          [] :: splitDots (joinDot (y :: t)).data := by
        simp [splitDots]
      rw [hrest]
      rw [ih (by simp) (fun s hs => hgood s (List.mem_cons_of_mem _ hs))]
      simp

theorem pathSegments_joinDot (stack : List String) (hne : stack ≠ [])
    (hgood : ∀ s ∈ stack, '.' ∉ s.data) :
    pathSegments (joinDot stack) = stack := by
  rw [pathSegments, joinDot_segments stack hne hgood, List.map_map]
  have : ∀ xs : List String, xs.map (fun s => String.mk s.data) = xs := by
    intro xs
    induction xs with
    | nil => rfl
    | cons a t iha => rw [List.map_cons, strMk_data, iha]
  exact this stack

theorem rowKey_eq_some {row : Row} {d : Nat} {name : String}
    (h : rowKey row = some (d, name)) :
    (∃ c0 c1 c2 c3 rest, row = c0 :: c1 :: c2 :: c3 :: rest ∧
        c0.tblImgs = d ∧ localName c0 = name) ∧ 1 ≤ d ∧ name ≠ "" := by
  rcases row with _ | ⟨c0, _ | ⟨c1, _ | ⟨c2, _ | ⟨c3, rest⟩⟩⟩⟩ <;> try cases h
  simp only [rowKey] at h
  by_cases h0 : c0.tblImgs = 0
  · rw [if_pos h0] at h; cases h
  · rw [if_neg h0] at h
    by_cases hn : localName c0 = ""
    · rw [if_pos hn] at h; cases h
    · rw [if_neg hn] at h
      have hin := Option.some.inj h
      have hd : c0.tblImgs = d := congrArg Prod.fst hin
      have hname : localName c0 = name := congrArg Prod.snd hin
      exact ⟨⟨c0, c1, c2, c3, rest, rfl, hd, hname⟩,
        Nat.one_le_iff_ne_zero.2 (hd ▸ h0), hname ▸ hn⟩

theorem foldl_snapStep_lookup : ∀ (rows : List Row) (stack : List String) (m : Snapshot)
    (p : String),
    dictLookup (rows.foldl snapStep (stack, m)).2 p =
      match lastWins (emitTraceFrom stack rows) p with
      | some r => some r
      | none => dictLookup m p := by
  intro rows
  induction rows with
  | nil => intro stack m p; rfl
  | cons row rs ih =>
    intro stack m p
    cases hk : rowKey row with
    | none =>
      rw [List.foldl_cons]
      have hstep : snapStep (stack, m) row = (stack, m) := by
        unfold snapStep; rw [hk]
      have htr : emitTraceFrom stack (row :: rs) = emitTraceFrom stack rs := by
        simp only [emitTraceFrom, hk]
      rw [hstep, htr]
      exact ih stack m p
    | some dn =>
      obtain ⟨d, name⟩ := dn
      obtain ⟨⟨c0, c1, c2, c3, rest, hrow, hd, hname⟩, hd1, hne⟩ := rowKey_eq_some hk
      subst hrow
      rw [List.foldl_cons]
      have hstep : snapStep (stack, m) (c0 :: c1 :: c2 :: c3 :: rest) =
          (stack.take (d - 1) ++ [name],
            dictInsert m (joinDot (stack.take (d - 1) ++ [name]))
              ⟨c2.text, c3.text, isMandatoryOf c2.text⟩) := by
        unfold snapStep; rw [hk]
      have htr : emitTraceFrom stack ((c0 :: c1 :: c2 :: c3 :: rest) :: rs) =
          (d, joinDot (stack.take (d - 1) ++ [name]),
            (⟨c2.text, c3.text, isMandatoryOf c2.text⟩ : ElemRecord)) ::
            emitTraceFrom (stack.take (d - 1) ++ [name]) rs := by
        simp only [emitTraceFrom, hk]
      rw [hstep, htr]
      rw [ih (stack.take (d - 1) ++ [name]) _ p]
      simp only [lastWins]
      cases lastWins (emitTraceFrom (stack.take (d - 1) ++ [name]) rs) p with
      | some r => rfl
      | none =>
        simp only [dictLookup_dictInsert]
        by_cases hp : p = joinDot (stack.take (d - 1) ++ [name])
        · rw [if_pos hp, if_pos hp.symm]
        · rw [if_neg hp, if_neg (fun h => hp h.symm)]

theorem lookup_parse_eq_lastWins (rows : List Row) (p : String) :
    dictLookup (parse_snapshot_table rows) p = lastWins (emitTraceFrom [] rows) p := by
  rw [parse_snapshot_table, foldl_snapStep_lookup]
  cases lastWins (emitTraceFrom [] rows) p <;> rfl

theorem lastWins_mem : ∀ {tr : List (Nat × String × ElemRecord)} {p : String} {r : ElemRecord},
    lastWins tr p = some r → ∃ d, (d, p, r) ∈ tr := by
  intro tr
  induction tr with
  | nil => intro p r h; cases h
  | cons e rest ih =>
    intro p r h
    simp only [lastWins] at h
    cases hl : lastWins rest p with
    | some r0 =>
      rw [hl] at h
      obtain ⟨d, hd⟩ := ih (hl.trans (by rw [Option.some.inj h]))
      exact ⟨d, List.mem_cons_of_mem _ hd⟩
    | none =>
      rw [hl] at h
      by_cases hp : e.2.1 = p
      · rw [if_pos hp] at h
        refine ⟨e.1, ?_⟩
        obtain ⟨d0, p0, r0⟩ := e
        cases hp
        cases Option.some.inj h
        exact List.mem_cons_self _ _
      · rw [if_neg hp] at h; cases h

theorem trace_good : ∀ (rows : List Row) (stack : List String),
    validFrom stack.length rows = true →
    (∀ s ∈ stack, s ≠ "" ∧ '.' ∉ s.data) →
    ∀ d p r, (d, p, r) ∈ emitTraceFrom stack rows →
      (pathSegments p).length = d ∧ "" ∉ pathSegments p := by
  intro rows
  induction rows with
  | nil => intro stack _ _ d p r h; cases h
  | cons row rs ih =>
    intro stack hv hgood d p r hmem
    cases hk : rowKey row with
    | none =>
      rw [show emitTraceFrom stack (row :: rs) = emitTraceFrom stack rs by
        simp only [emitTraceFrom, hk]] at hmem
      rw [show validFrom stack.length (row :: rs) = validFrom stack.length rs by
        simp only [validFrom, hk]] at hv
      exact ih stack hv hgood d p r hmem
    | some dn =>
      obtain ⟨d0, name⟩ := dn
      obtain ⟨⟨c0, c1, c2, c3, rest, hrow, _, _⟩, hd1, hne⟩ := rowKey_eq_some hk
      subst hrow
      rw [show validFrom stack.length ((c0 :: c1 :: c2 :: c3 :: rest) :: rs) =
          (decide (d0 ≤ stack.length + 1) && decide ('.' ∉ name.data) &&
            validFrom (min stack.length (d0 - 1) + 1) rs) by
        simp only [validFrom, hk]] at hv
      rw [Bool.and_eq_true, Bool.and_eq_true, decide_eq_true_eq, decide_eq_true_eq] at hv
      obtain ⟨⟨hdle, hnamedot⟩, hvrest⟩ := hv
      rw [show emitTraceFrom stack ((c0 :: c1 :: c2 :: c3 :: rest) :: rs) =
          (d0, joinDot (stack.take (d0 - 1) ++ [name]),
            (⟨c2.text, c3.text, isMandatoryOf c2.text⟩ : ElemRecord)) ::
            emitTraceFrom (stack.take (d0 - 1) ++ [name]) rs by
        simp only [emitTraceFrom, hk]] at hmem
      have hgoodNew : ∀ s ∈ stack.take (d0 - 1) ++ [name], s ≠ "" ∧ '.' ∉ s.data := by
        intro s hs
        rcases List.mem_append.1 hs with hs1 | hs1
        · exact hgood s (List.take_subset _ _ hs1)
        · rw [List.mem_singleton.1 hs1]
          exact ⟨hne, hnamedot⟩
      have hlen : (stack.take (d0 - 1) ++ [name]).length = d0 := by
        rw [List.length_append, List.length_take, List.length_singleton]
        omega
      rcases List.mem_cons.1 hmem with h1 | h1
      · have hp : p = joinDot (stack.take (d0 - 1) ++ [name]) := congrArg (Prod.fst ∘ Prod.snd) h1
        have hd : d = d0 := congrArg Prod.fst h1
        have hsegs : pathSegments p = stack.take (d0 - 1) ++ [name] := by
          rw [hp]
          exact pathSegments_joinDot _ (by simp) (fun s hs => (hgoodNew s hs).2)
        constructor
        · rw [hsegs, hd, hlen]
        · rw [hsegs]
          intro habs
          exact ((hgoodNew "" habs).1) rfl
      · refine ih (stack.take (d0 - 1) ++ [name]) ?_ hgoodNew d p r h1
        rw [hlen]
        have : min stack.length (d0 - 1) + 1 = d0 := by omega
        rw [this] at hvrest
        exact hvrest

theorem parse_hasKey_trace {rows : List Row} {p : String}
    (h : hasKey (parse_snapshot_table rows) p = true) :
    ∃ d r, (d, p, r) ∈ emitTraceFrom [] rows := by
  rw [hasKey, lookup_parse_eq_lastWins] at h
  cases hl : lastWins (emitTraceFrom [] rows) p with
  | none => rw [hl] at h; cases h
  | some r =>
    obtain ⟨d, hd⟩ := lastWins_mem hl
    exact ⟨d, r, hd⟩

/-!
Helper lemmas for the namespace isolator.
-/

theorem string_append_left_cancel {a b c : String} (h : a ++ b = a ++ c) : b = c := by
  have hd : (a ++ b).data = (a ++ c).data := by rw [h]
  rw [String.data_append, String.data_append] at hd
  have hbc := List.append_cancel_left hd
  rw [← strMk_data b, ← strMk_data c, hbc]

theorem foldl_idMapStep_entries (pfx : String) (contrib : Tag → Option String) :
    ∀ (block : List Tag) (m : List (String × String)),
      (∀ e ∈ m, e.2 = pfx ++ e.1) →
      ∀ e ∈ block.foldl (idMapStep pfx contrib) m, e.2 = pfx ++ e.1 := by
  intro block
  induction block with
  | nil => intro m hm e he; exact hm e he
  | cons tag rest ih =>
    intro m hm e he
    rw [List.foldl_cons] at he
    refine ih (idMapStep pfx contrib m tag) ?_ e he
    intro f hf
    unfold idMapStep at hf
    cases hc : contrib tag with
    | none => rw [hc] at hf; exact hm f hf
    | some i =>
      rw [hc] at hf
      rcases mem_dictInsert hf with h1 | h1
      · rw [h1]
      · exact hm f h1

theorem buildIdMap_entries {block : List Tag} {pfx : String} :
    ∀ e ∈ buildIdMap block pfx, e.2 = pfx ++ e.1 := by
  rw [buildIdMap]
  exact foldl_idMapStep_entries pfx _ block _
    (foldl_idMapStep_entries pfx _ block [] (fun e he => absurd he (List.not_mem_nil e)))

theorem foldl_idMapStep_hasKey_mono (pfx : String) (contrib : Tag → Option String)
    {k : String} :
    ∀ (block : List Tag) (m : List (String × String)), hasKey m k = true →
      hasKey (block.foldl (idMapStep pfx contrib) m) k = true := by
  intro block
  induction block with
  | nil => intro m hm; exact hm
  | cons tag rest ih =>
    intro m hm
    rw [List.foldl_cons]
    refine ih _ ?_
    unfold idMapStep
    cases hc : contrib tag with
    | none => exact hm
    | some i => exact (hasKey_dictInsert _ _ _ _).2 (Or.inr hm)

theorem foldl_idMapStep_hasKey_of_contrib (pfx : String) (contrib : Tag → Option String)
    {t : String} :
    ∀ (block : List Tag) (m : List (String × String)) (tag : Tag), tag ∈ block →
      contrib tag = some t →
      hasKey (block.foldl (idMapStep pfx contrib) m) t = true := by
  intro block
  induction block with
  | nil => intro m tag htag; cases htag
  | cons b rest ih =>
    intro m tag htag hc
    rw [List.foldl_cons]
    rcases List.mem_cons.1 htag with h1 | h1
    · refine foldl_idMapStep_hasKey_mono pfx contrib rest _ ?_
      unfold idMapStep
      rw [← h1, hc]
      exact (hasKey_dictInsert _ _ _ _).2 (Or.inl rfl)
    · exact ih _ tag h1 hc

theorem hasKey_buildIdMap_of_id {block : List Tag} {pfx : String} {tag : Tag} {t : String}
    (htag : tag ∈ block) (hid : tag.id = some t) :
    hasKey (buildIdMap block pfx) t = true := by
  rw [buildIdMap]
  exact foldl_idMapStep_hasKey_mono pfx _ block _
    (foldl_idMapStep_hasKey_of_contrib pfx _ block [] tag htag hid)

theorem hasKey_buildIdMap_of_name {block : List Tag} {pfx : String} {tag : Tag} {t : String}
    (htag : tag ∈ block) (ha : tag.isA = true) (hn : tag.nameAttr = some t) :
    hasKey (buildIdMap block pfx) t = true := by
  rw [buildIdMap]
  exact foldl_idMapStep_hasKey_of_contrib pfx _ block _ tag htag (by rw [ha]; simpa using hn)

theorem data_hash_append (t : String) : ("#" ++ t).data = '#' :: t.data := by
  rw [String.data_append]
  rfl

theorem mk_hash_data (s : String) : String.mk ('#' :: s.data) = "#" ++ s := by
  rw [← strMk_data ("#" ++ s), data_hash_append]

theorem rewriteHref_anchor {idMap : List (String × String)} {pfx t : String}
    (ht : t ≠ "") (hkey : hasKey idMap t = true) :
    rewriteHref idMap pfx true (some ("#" ++ t)) = some ("#" ++ (pfx ++ t)) := by
  unfold rewriteHref
  rw [if_pos rfl]
  cases hdata : t.data with
  | nil => exact absurd hdata (data_ne_nil ht)
  | cons c rest =>
    have hd : ("#" ++ t).data = '#' :: c :: rest := by rw [data_hash_append, hdata]
    have hmk : String.mk (c :: rest) = t := by rw [← hdata, strMk_data]
    simp only [hd, hmk]
    rw [if_pos hkey, mk_hash_data]

/-!
Remaining small helpers used by the claim theorems.
-/

theorem mem_removedOf_type {prev curr : Snapshot} {c : Change}
    (h : c ∈ removedOf prev curr) : c.type = "Removed" := by
  obtain ⟨e, _, _, hc⟩ := mem_removedOf.1 h
  rw [← hc, removedChange_type]

theorem mem_addedOf_type {prev curr : Snapshot} {c : Change}
    (h : c ∈ addedOf prev curr) : c.type = "New" := by
  obtain ⟨e, _, _, hc⟩ := mem_addedOf.1 h
  rw [← hc, newChange_type]

theorem mem_changedOf_type {prev curr : Snapshot} {c : Change}
    (h : c ∈ changedOf prev curr) : c.type = "Changed" := by
  obtain ⟨e, _, _, _, _, hc⟩ := mem_changedOf.1 h
  rw [← hc, classifyChanged_type]

theorem countP_type_pred_zero {l : List Change} {T path : String}
    (h : ∀ c ∈ l, c.type ≠ T) :
    l.countP (fun c => c.type == T && c.element == path) = 0 := by
  rw [List.countP_eq_zero]
  intro c hc hp
  rw [Bool.and_eq_true, beq_iff_eq] at hp
  exact h c hc hp.1

theorem countP_detect_false (prev curr : Snapshot) (p : Change → Bool) :
    (detect_breaking_changes prev curr false).countP p =
      (removedOf prev curr).countP p + (addedOf prev curr).countP p +
        (changedOf prev curr).countP p := by
  rw [detect_false_eq, (List.perm_insertionSort ChangeLE _).countP_eq,
    List.countP_append, List.countP_append]

theorem str_append_empty (s : String) : s ++ "" = s := by
  rw [← strMk_data (s ++ ""), String.data_append]
  show String.mk (s.data ++ []) = s
  rw [List.append_nil, strMk_data]

theorem classifyChanged_unparsed {path a b : String}
    (h : cardMinMax a = none ∨ cardMinMax b = none) :
    classifyChanged path a b =
      ⟨"INFO", "Changed", path, "Cardinality changed: " ++ a ++ " &rarr; " ++ b⟩ := by
  unfold classifyChanged
  rcases h with h | h
  · rw [h]
  · rw [h]
    cases cardMinMax a <;> rfl

theorem classifyChanged_mem_detect {prev curr : Snapshot} {path : String}
    {rp rc : ElemRecord} (hp : (path, rp) ∈ prev) (hl : dictLookup curr path = some rc)
    (hcard : rp.card ≠ rc.card) :
    classifyChanged path rp.card rc.card ∈ detect_breaking_changes prev curr false :=
  mem_detect_false.2 (Or.inr (Or.inr (mem_changedOf.2 ⟨(path, rp), hp, rc, hl, hcard, rfl⟩)))

theorem detect_pairwise (prev curr : Snapshot) (ch : Bool) :
    (detect_breaking_changes prev curr ch).Pairwise ChangeLE := by
  cases ch
  · rw [detect_false_eq]
    exact List.sorted_insertionSort ChangeLE _
  · rw [detect_true_eq]
    unfold suppress_child_changes
    exact List.Pairwise.filter _ (by
      rw [detect_false_eq]
      exact List.sorted_insertionSort ChangeLE _)

theorem rewrite_ids_fst (block : List Tag) (pfx : String) :
    (rewrite_ids block pfx).1 = block.map (rewriteTag (buildIdMap block pfx) pfx) := rfl

theorem rewrite_ids_snd (block : List Tag) (pfx : String) :
    (rewrite_ids block pfx).2 = buildIdMap block pfx := rfl

theorem rewriteTag_isA (m : List (String × String)) (pfx : String) (tag : Tag) :
    (rewriteTag m pfx tag).isA = tag.isA := rfl

theorem rewriteTag_id (m : List (String × String)) (pfx : String) (tag : Tag) :
    (rewriteTag m pfx tag).id = tag.id.map (fun i => pfx ++ i) := rfl

theorem rewriteTag_nameAttr (m : List (String × String)) (pfx : String) (tag : Tag) :
    (rewriteTag m pfx tag).nameAttr =
      if tag.isA then tag.nameAttr.map (fun n => pfx ++ n) else tag.nameAttr := rfl

theorem rewriteTag_href (m : List (String × String)) (pfx : String) (tag : Tag) :
    (rewriteTag m pfx tag).href = rewriteHref m pfx tag.isA tag.href := rfl

theorem resolvable_elim {block : List Tag} {t : String} (h : resolvable block t = true) :
    t ≠ "" ∧ ∃ tag ∈ block, tag.id = some t ∨ (tag.isA = true ∧ tag.nameAttr = some t) := by
  unfold resolvable at h
  rw [Bool.and_eq_true, decide_eq_true_eq] at h
  obtain ⟨ht, hany⟩ := h
  obtain ⟨tag, htag, hpred⟩ := List.any_eq_true.1 hany
  rw [Bool.or_eq_true, Bool.and_eq_true, decide_eq_true_eq, decide_eq_true_eq] at hpred
  exact ⟨ht, tag, htag, hpred⟩

theorem resolvable_intro {block : List Tag} {t : String} (ht : t ≠ "")
    (h : ∃ tag ∈ block, tag.id = some t ∨ (tag.isA = true ∧ tag.nameAttr = some t)) :
    resolvable block t = true := by
  unfold resolvable
  rw [Bool.and_eq_true, decide_eq_true_eq]
  obtain ⟨tag, htag, hpred⟩ := h
  refine ⟨ht, List.any_eq_true.2 ⟨tag, htag, ?_⟩⟩
  rw [Bool.or_eq_true, Bool.and_eq_true, decide_eq_true_eq, decide_eq_true_eq]
  exact hpred

theorem append_ne_empty_of_right {a b : String} (hb : b ≠ "") : a ++ b ≠ "" := by
  intro h
  apply data_ne_nil hb
  have := congrArg String.data h
  rw [String.data_append] at this
  exact (List.append_eq_nil.1 this).2

/-!
Claim theorems.
-/

/-- C4: the change list returned by `detect_breaking_changes` is totally
ordered by the sort key `(rank, path)`, where the rank is
`get_sort_rank` (CRITICAL 1, BREAKING 2, INFO/WARNING not-New 3, New 4,
else 5) and ties are broken by ascending path (code-point order, `lexLe`);
in particular, in the end-to-end example the two BREAKING records are
ordered `Patient.identifier` before `Patient.name`. -/
theorem c4_output_order : ∀ (prev curr : Snapshot) (ch : Bool),
    (detect_breaking_changes prev curr ch).Pairwise (fun a b =>
      get_sort_rank a < get_sort_rank b ∨
        (get_sort_rank a = get_sort_rank b ∧ lexLe a.element.data b.element.data = true)) ∧
    detect_breaking_changes [("Patient.name", ⟨"0..1", "HumanName", false⟩)]
        [("Patient.name", ⟨"1..1", "HumanName", true⟩),
         ("Patient.identifier", ⟨"1..*", "Identifier", true⟩)] true =
      [⟨"BREAKING", "New", "Patient.identifier", "BREAKING: New mandatory element added."⟩,
       ⟨"BREAKING", "Changed", "Patient.name",
         "Cardinality changed: 0..1 &rarr; 1..1 (Tightened: Optional -> Mandatory)"⟩] := by
  intro prev curr ch
  constructor
  · refine (detect_pairwise prev curr ch).imp ?_
    intro a b hab
    rw [ChangeLE, changeLe, Bool.or_eq_true, Bool.and_eq_true, decide_eq_true_eq,
      beq_iff_eq] at hab
    exact hab
  · decide

/-- C7: when a path is present in both snapshots with different
cardinality strings but either side fails to parse as `min..max`
(no `..` separator, or a minimum that is not an integer), the parse
failure is recovered locally: the `Changed` record still appears in the
diff, with severity `INFO` and the plain before/after description,
without any tightening or loosening annotation. -/
theorem c7_unparsed_recovered : ∀ (prev curr : Snapshot) (path : String)
    (rp rc : ElemRecord),
    (path, rp) ∈ prev → dictLookup curr path = some rc → rp.card ≠ rc.card →
    (cardMinMax rp.card = none ∨ cardMinMax rc.card = none) →
    classifyChanged path rp.card rc.card =
      ⟨"INFO", "Changed", path, "Cardinality changed: " ++ rp.card ++ " &rarr; " ++ rc.card⟩ ∧
    classifyChanged path rp.card rc.card ∈ detect_breaking_changes prev curr false := by
  intro prev curr path rp rc hp hl hcard hfail
  exact ⟨classifyChanged_unparsed hfail, classifyChanged_mem_detect hp hl hcard⟩

/-- Witness for C7 at a concrete input: previous cardinality `0..1`,
current cardinality `*` (which has no `..` separator). -/
theorem c7_unparsed_recovered_witness :
    classifyChanged "P" "0..1" "*" =
      ⟨"INFO", "Changed", "P", "Cardinality changed: " ++ "0..1" ++ " &rarr; " ++ "*"⟩ ∧
    classifyChanged "P" "0..1" "*" ∈
      detect_breaking_changes [("P", ⟨"0..1", "T", false⟩)] [("P", ⟨"*", "T", true⟩)] false :=
  c7_unparsed_recovered [("P", ⟨"0..1", "T", false⟩)] [("P", ⟨"*", "T", true⟩)] "P"
    ⟨"0..1", "T", false⟩ ⟨"*", "T", true⟩ (by decide) (by decide) (by decide)
    (Or.inr (by decide))

/-- C10: when two rows of the snapshot table resolve to the same full
dotted path, the extractor does not fail and keeps only the last such
row: the value stored under any path is the record of the latest
emission for that path (`lastWins`), and in the concrete duplicate
example the mapping has one entry while two rows were accepted. -/
theorem c10_duplicate_paths :
    (∀ (rows : List Row) (p : String),
      dictLookup (parse_snapshot_table rows) p = lastWins (emitTraceFrom [] rows) p) ∧
    parse_snapshot_table
        [[⟨1, some "A", [], ""⟩, ⟨0, none, [], ""⟩, ⟨0, none, [], "0..1"⟩, ⟨0, none, [], "T1"⟩],
         [⟨1, some "A", [], ""⟩, ⟨0, none, [], ""⟩, ⟨0, none, [], "1..1"⟩, ⟨0, none, [], "T2"⟩]] =
      [("A", ⟨"1..1", "T2", true⟩)] ∧
    (emitTraceFrom []
        [[⟨1, some "A", [], ""⟩, ⟨0, none, [], ""⟩, ⟨0, none, [], "0..1"⟩, ⟨0, none, [], "T1"⟩],
         [⟨1, some "A", [], ""⟩, ⟨0, none, [], ""⟩, ⟨0, none, [], "1..1"⟩,
          ⟨0, none, [], "T2"⟩]]).length = 2 ∧
    (parse_snapshot_table
        [[⟨1, some "A", [], ""⟩, ⟨0, none, [], ""⟩, ⟨0, none, [], "0..1"⟩, ⟨0, none, [], "T1"⟩],
         [⟨1, some "A", [], ""⟩, ⟨0, none, [], ""⟩, ⟨0, none, [], "1..1"⟩,
          ⟨0, none, [], "T2"⟩]]).length = 1 :=
  ⟨lookup_parse_eq_lastWins, by decide, by decide, by decide⟩

/-- C9: isolation is injective — no two distinct original identifiers
(element ids or anchor names) are mapped to the same prefixed identifier
by one `rewrite_ids` pass — and every same-document link whose target was
resolvable inside the fragment before isolation is rewritten to the
prefixed target, which is again resolvable in the rewritten fragment
(targets are non-empty by definition of resolvability: the bare fragment
`#` designates the top of the document, not an element). -/
theorem c9_isolation : ∀ (block : List Tag) (pfx : String),
    (∀ e1 ∈ (rewrite_ids block pfx).2, ∀ e2 ∈ (rewrite_ids block pfx).2,
      e1.1 ≠ e2.1 → e1.2 ≠ e2.2) ∧
    (∀ (t : String) (linkTag : Tag), linkTag ∈ block → linkTag.isA = true →
      linkTag.href = some ("#" ++ t) → resolvable block t = true →
      rewriteTag (buildIdMap block pfx) pfx linkTag ∈ (rewrite_ids block pfx).1 ∧
      (rewriteTag (buildIdMap block pfx) pfx linkTag).href = some ("#" ++ (pfx ++ t)) ∧
      resolvable (rewrite_ids block pfx).1 (pfx ++ t) = true) := by
  intro block pfx
  constructor
  · intro e1 h1 e2 h2 hne heq
    rw [rewrite_ids_snd] at h1 h2
    have v1 := buildIdMap_entries e1 h1
    have v2 := buildIdMap_entries e2 h2
    rw [v1, v2] at heq
    exact hne (string_append_left_cancel heq)
  · intro t linkTag hmem ha hhref hres
    obtain ⟨ht, w, hw, hwpred⟩ := resolvable_elim hres
    have hkey : hasKey (buildIdMap block pfx) t = true := by
      rcases hwpred with hid | ⟨hisa, hname⟩
      · exact hasKey_buildIdMap_of_id hw hid
      · exact hasKey_buildIdMap_of_name hw hisa hname
    refine ⟨?_, ?_, ?_⟩
    · rw [rewrite_ids_fst]
      exact List.mem_map_of_mem _ hmem
    · rw [rewriteTag_href, ha, hhref]
      exact rewriteHref_anchor ht hkey
    · rw [rewrite_ids_fst]
      refine resolvable_intro (append_ne_empty_of_right ht) ?_
      refine ⟨rewriteTag (buildIdMap block pfx) pfx w, List.mem_map_of_mem _ hw, ?_⟩
      rcases hwpred with hid | ⟨hisa, hname⟩
      · exact Or.inl (by rw [rewriteTag_id, hid]; rfl)
      · refine Or.inr ⟨by rw [rewriteTag_isA, hisa], ?_⟩
        rw [rewriteTag_nameAttr, hisa, if_pos rfl, hname]
        rfl

/-- Witness for C9 at a concrete fragment: a `div` with id `tbl`, an
anchor named `anchor`, and a link `#tbl`, isolated with prefix
`prev-`. -/
theorem c9_isolation_witness :
    (rewriteTag
        (buildIdMap
          [⟨false, some "tbl", none, none⟩, ⟨true, none, some "anchor", none⟩,
           ⟨true, none, none, some "#tbl"⟩] "prev-") "prev-"
        ⟨true, none, none, some "#tbl"⟩).href = some ("#" ++ ("prev-" ++ "tbl")) ∧
    resolvable
      (rewrite_ids
        [⟨false, some "tbl", none, none⟩, ⟨true, none, some "anchor", none⟩,
         ⟨true, none, none, some "#tbl"⟩] "prev-").1 ("prev-" ++ "tbl") = true :=
  (((c9_isolation
      [⟨false, some "tbl", none, none⟩, ⟨true, none, some "anchor", none⟩,
       ⟨true, none, none, some "#tbl"⟩] "prev-").2 "tbl" ⟨true, none, none, some "#tbl"⟩
      (by decide) rfl (by decide) (by decide)).2 : _ ∧ _)

/-- Counterexample to C1 as stated: with the default child suppression
(`children_hidden = True`), the path `A.B` lies in `previous ∖ current`
yet the diff result contains no `Removed` record for it — its parent `A`
is also removed, so the child record is suppressed.  The full output is
computed explicitly. -/
theorem c1_counterexample :
    (("A.B", (⟨"1..1", "T", true⟩ : ElemRecord)) ∈
      ([("A", ⟨"1..1", "T", true⟩), ("A.B", ⟨"1..1", "T", true⟩)] : Snapshot)) ∧
    hasKey ([] : Snapshot) "A.B" = false ∧
    detect_breaking_changes
        [("A", ⟨"1..1", "T", true⟩), ("A.B", ⟨"1..1", "T", true⟩)] [] true =
      [⟨"CRITICAL", "Removed", "A", "CRITICAL: Mandatory element removed!"⟩] := by
  decide

/-- C1 (amended): with child suppression disabled, every entry of the
previous snapshot whose path is absent from the current snapshot yields
its `Removed` record in the diff — severity `CRITICAL` iff the element
is mandatory, else `INFO` — and every entry of the current snapshot
whose path is absent from the previous snapshot yields its `New` record
— severity `BREAKING` iff mandatory, else `INFO`.  (With suppression
enabled, records of dotted descendants of removed or new paths are
dropped, as the counterexample shows.) -/
theorem c1_amended : ∀ (prev curr : Snapshot) (path : String) (r : ElemRecord),
    ((path, r) ∈ prev → hasKey curr path = false →
      removedChange path r ∈ detect_breaking_changes prev curr false ∧
      (removedChange path r).severity = (if r.is_mandatory then "CRITICAL" else "INFO") ∧
      (removedChange path r).type = "Removed" ∧ (removedChange path r).element = path) ∧
    ((path, r) ∈ curr → hasKey prev path = false →
      newChange path r ∈ detect_breaking_changes prev curr false ∧
      (newChange path r).severity = (if r.is_mandatory then "BREAKING" else "INFO") ∧
      (newChange path r).type = "New" ∧ (newChange path r).element = path) := by
  intro prev curr path r
  constructor
  · intro hmem hk
    refine ⟨?_, removedChange_severity path r, removedChange_type path r,
      removedChange_element path r⟩
    exact mem_detect_false.2 (Or.inl (mem_removedOf.2 ⟨(path, r), hmem, hk, rfl⟩))
  · intro hmem hk
    refine ⟨?_, newChange_severity path r, newChange_type path r, newChange_element path r⟩
    exact mem_detect_false.2 (Or.inr (Or.inl (mem_addedOf.2 ⟨(path, r), hmem, hk, rfl⟩)))

/-- Witness for C1 (amended) at concrete snapshots: a mandatory removed
element and an optional new element. -/
theorem c1_amended_witness :
    removedChange "X" ⟨"1..1", "T", true⟩ ∈
      detect_breaking_changes [("X", ⟨"1..1", "T", true⟩)] [] false ∧
    newChange "Y" ⟨"0..1", "T", false⟩ ∈
      detect_breaking_changes [] [("Y", ⟨"0..1", "T", false⟩)] false :=
  ⟨((c1_amended [("X", ⟨"1..1", "T", true⟩)] [] "X" ⟨"1..1", "T", true⟩).1
      (by decide) (by decide)).1,
   ((c1_amended [] [("Y", ⟨"0..1", "T", false⟩)] "Y" ⟨"0..1", "T", false⟩).2
      (by decide) (by decide)).1⟩

/-- Counterexample to C2 as stated: for the cardinality change
`1..*` to `0..1` the minimum decreased (1 to 0), so the claim requires a
loosening note in the description; but the unbounded-to-bounded rule is
an `elif` branch of the same chain, so the record carries only the
`List -> Single` note and no loosening note appears anywhere in the
output. -/
theorem c2_counterexample :
    cardMinMax "1..*" = some (1, "*") ∧ cardMinMax "0..1" = some (0, "1") ∧
    detect_breaking_changes [("P", ⟨"1..*", "T", true⟩)] [("P", ⟨"0..1", "T", false⟩)] true =
      [⟨"BREAKING", "Changed", "P",
        "Cardinality changed: 1..* &rarr; 0..1 (Tightened: List -> Single)"⟩] ∧
    containsChars "Loosened".data (classifyChanged "P" "1..*" "0..1").desc.data = false := by
  decide

/-- C2 (amended): for a path in both snapshots whose cardinality strings
differ and both parse, the severity is `BREAKING` exactly when the
minimum increased or the previous maximum was `*` and the current one is
not, and the loosening note is appended exactly when the minimum
decreased AND the unbounded-to-bounded escalation did not fire (the
three rules form one `if/elif/elif` chain); the record is in the diff
(suppression disabled). -/
theorem c2_amended : ∀ (prev curr : Snapshot) (path : String) (rp rc : ElemRecord)
    (pmin cmin : Int) (pmax cmax : String),
    (path, rp) ∈ prev → dictLookup curr path = some rc → rp.card ≠ rc.card →
    cardMinMax rp.card = some (pmin, pmax) → cardMinMax rc.card = some (cmin, cmax) →
    classifyChanged path rp.card rc.card ∈ detect_breaking_changes prev curr false ∧
    classifyChanged path rp.card rc.card =
      ⟨(if pmin < cmin ∨ (pmax = "*" ∧ cmax ≠ "*") then "BREAKING" else "INFO"),
        "Changed", path,
        "Cardinality changed: " ++ rp.card ++ " &rarr; " ++ rc.card ++
          (if pmin < cmin then " (Tightened: Optional -> Mandatory)"
           else if pmax = "*" ∧ cmax ≠ "*" then " (Tightened: List -> Single)"
           else if pmin > cmin then " (Loosened: Mandatory -> Optional)"
           else "")⟩ := by
  intro prev curr path rp rc pmin cmin pmax cmax hp hl hcard hpm hcm
  refine ⟨classifyChanged_mem_detect hp hl hcard, ?_⟩
  unfold classifyChanged
  rw [hpm, hcm]
  dsimp only
  by_cases h1 : pmin < cmin
  · rw [if_pos h1, if_pos (Or.inl h1), if_pos h1]
  · by_cases h2 : pmax = "*" ∧ cmax ≠ "*"
    · rw [if_neg h1, if_pos h2, if_pos (Or.inr h2), if_neg h1, if_pos h2]
    · have hor : ¬(pmin < cmin ∨ (pmax = "*" ∧ cmax ≠ "*")) := by
        rintro (h | h)
        · exact h1 h
        · exact h2 h
      by_cases h3 : pmin > cmin
      · rw [if_neg h1, if_neg h2, if_pos h3, if_neg hor, if_neg h1, if_neg h2, if_pos h3]
      · rw [if_neg h1, if_neg h2, if_neg h3, if_neg hor, if_neg h1, if_neg h2, if_neg h3,
          str_append_empty]

/-- Witness for C2 (amended) at `0..*` to `1..1`: the minimum increased,
so the record is `BREAKING` with the tightening note. -/
theorem c2_amended_witness :
    classifyChanged "P" "0..*" "1..1" ∈
      detect_breaking_changes [("P", ⟨"0..*", "T", false⟩)] [("P", ⟨"1..1", "T", true⟩)]
        false :=
  (c2_amended [("P", ⟨"0..*", "T", false⟩)] [("P", ⟨"1..1", "T", true⟩)] "P"
    ⟨"0..*", "T", false⟩ ⟨"1..1", "T", true⟩ 0 1 "*" "1" (by decide) (by decide)
    (by decide) (by decide) (by decide)).1

/-- Counterexample to C3 as stated: for a type-only change (path `P` has
type `A` before and `B` after, with the same cardinality string) the
claim requires an `INFO` record carrying the literal before/after
string, but the diff emits no record at all — the `Changed` loop
compares only the cardinality strings and never inspects the type. -/
theorem c3_counterexample :
    dictLookup [("P", (⟨"0..1", "A", false⟩ : ElemRecord))] "P" = some ⟨"0..1", "A", false⟩ ∧
    dictLookup [("P", (⟨"0..1", "B", false⟩ : ElemRecord))] "P" = some ⟨"0..1", "B", false⟩ ∧
    (ElemRecord.type ⟨"0..1", "A", false⟩ ≠ ElemRecord.type ⟨"0..1", "B", false⟩) ∧
    (ElemRecord.card ⟨"0..1", "A", false⟩ = ElemRecord.card ⟨"0..1", "B", false⟩) ∧
    detect_breaking_changes [("P", ⟨"0..1", "A", false⟩)] [("P", ⟨"0..1", "B", false⟩)]
      false = [] ∧
    detect_breaking_changes [("P", ⟨"0..1", "A", false⟩)] [("P", ⟨"0..1", "B", false⟩)]
      true = [] := by
  decide

/-- C3 (amended): a type-only change — path in both snapshots with equal
cardinality strings — yields no record at all for that path; a
cardinality change that does not parse is reported as a `Changed` record
with severity `INFO` carrying the literal before/after string. -/
theorem c3_amended : ∀ (prev curr : Snapshot) (path : String) (rp rc : ElemRecord),
    (keysOf prev).Nodup → (path, rp) ∈ prev → dictLookup curr path = some rc →
    (rp.card = rc.card →
      (detect_breaking_changes prev curr false).countP (fun c => c.element == path) = 0) ∧
    (rp.card ≠ rc.card → (cardMinMax rp.card = none ∨ cardMinMax rc.card = none) →
      classifyChanged path rp.card rc.card =
        ⟨"INFO", "Changed", path,
          "Cardinality changed: " ++ rp.card ++ " &rarr; " ++ rc.card⟩ ∧
      classifyChanged path rp.card rc.card ∈ detect_breaking_changes prev curr false) := by
  intro prev curr path rp rc hnd hp hl
  constructor
  · intro hcard
    rw [countP_detect_false]
    have hkc : hasKey curr path = true := by rw [hasKey, hl]; rfl
    have hkp : hasKey prev path = true := hasKey_of_mem hp
    rw [countP_removedOf_zero_of_hasKey hkc, countP_addedOf_zero_of_hasKey hkp,
      countP_changedOf_zero_of_card_eq hnd hp hl hcard]
  · intro hcard hfail
    exact ⟨classifyChanged_unparsed hfail, classifyChanged_mem_detect hp hl hcard⟩

/-- Witness for C3 (amended): a type-only change produces a diff with no
record for the path, and an unparsed cardinality change produces the
literal `INFO` record. -/
theorem c3_amended_witness :
    (detect_breaking_changes [("P", ⟨"0..1", "A", false⟩)] [("P", ⟨"0..1", "B", false⟩)]
        false).countP (fun c => c.element == "P") = 0 ∧
    classifyChanged "Q" "0..1" "x..y" =
      ⟨"INFO", "Changed", "Q", "Cardinality changed: " ++ "0..1" ++ " &rarr; " ++ "x..y"⟩ :=
  ⟨(c3_amended [("P", ⟨"0..1", "A", false⟩)] [("P", ⟨"0..1", "B", false⟩)] "P"
      ⟨"0..1", "A", false⟩ ⟨"0..1", "B", false⟩ (by decide) (by decide) (by decide)).1
      (by decide),
   ((c3_amended [("Q", ⟨"0..1", "T", false⟩)] [("Q", ⟨"x..y", "T", false⟩)] "Q"
      ⟨"0..1", "T", false⟩ ⟨"x..y", "T", false⟩ (by decide) (by decide) (by decide)).2
      (by decide) (Or.inr (by decide))).1⟩

/-- Counterexample to C5 as stated: with the default child suppression,
the path `A.B` lies in `current ∖ previous` but the diff result contains
zero (not exactly one) `New` records for it, because its parent `A` is
also new. -/
theorem c5_counterexample :
    (("A.B", (⟨"1..1", "T", true⟩ : ElemRecord)) ∈
      ([("A", ⟨"1..1", "T", true⟩), ("A.B", ⟨"1..1", "T", true⟩)] : Snapshot)) ∧
    hasKey ([] : Snapshot) "A.B" = false ∧
    (detect_breaking_changes [] [("A", ⟨"1..1", "T", true⟩), ("A.B", ⟨"1..1", "T", true⟩)]
        true).countP (fun c => c.type == "New" && c.element == "A.B") = 0 := by
  decide

/-- C5 (amended): with child suppression disabled, every path in
`previous ∖ current` yields exactly one `Removed` record, every path in
`current ∖ previous` yields exactly one `New` record, and a path present
in both snapshots with equal cardinality strings yields no `Changed`
record (the snapshots are dictionaries, so their key lists are free of
duplicates). -/
theorem c5_amended : ∀ (prev curr : Snapshot) (path : String) (r rc : ElemRecord),
    ((keysOf prev).Nodup → (path, r) ∈ prev → hasKey curr path = false →
      (detect_breaking_changes prev curr false).countP
        (fun c => c.type == "Removed" && c.element == path) = 1) ∧
    ((keysOf curr).Nodup → (path, r) ∈ curr → hasKey prev path = false →
      (detect_breaking_changes prev curr false).countP
        (fun c => c.type == "New" && c.element == path) = 1) ∧
    ((keysOf prev).Nodup → (path, r) ∈ prev → dictLookup curr path = some rc →
      r.card = rc.card →
      (detect_breaking_changes prev curr false).countP
        (fun c => c.type == "Changed" && c.element == path) = 0) := by
  intro prev curr path r rc
  refine ⟨fun hnd hmem hk => ?_, fun hnd hmem hk => ?_, fun hnd hmem hl hcard => ?_⟩
  · rw [countP_detect_false, countP_removedOf_eq_one hnd hmem hk,
      countP_type_pred_zero (fun c hc => by rw [mem_addedOf_type hc]; decide),
      countP_type_pred_zero (fun c hc => by rw [mem_changedOf_type hc]; decide)]
  · rw [countP_detect_false, countP_addedOf_eq_one hnd hmem hk,
      countP_type_pred_zero (fun c hc => by rw [mem_removedOf_type hc]; decide),
      countP_type_pred_zero (fun c hc => by rw [mem_changedOf_type hc]; decide)]
  · rw [countP_detect_false,
      countP_type_pred_zero (fun c hc => by rw [mem_removedOf_type hc]; decide),
      countP_type_pred_zero (fun c hc => by rw [mem_addedOf_type hc]; decide)]
    have hle : (changedOf prev curr).countP
        (fun c => c.type == "Changed" && c.element == path) ≤
          (changedOf prev curr).countP (fun c => c.element == path) :=
      List.countP_mono_left (fun c _ hp2 => by
        rw [Bool.and_eq_true] at hp2
        exact hp2.2)
    rw [countP_changedOf_zero_of_card_eq hnd hmem hl hcard] at hle
    omega

/-- Witness for C5 (amended) at concrete snapshots: `X` is removed, `Y`
is new, and `B` keeps its cardinality. -/
theorem c5_amended_witness :
    (detect_breaking_changes [("X", ⟨"1..1", "T", true⟩), ("B", ⟨"0..1", "T", false⟩)]
        [("Y", ⟨"1..1", "T", true⟩), ("B", ⟨"0..1", "T", false⟩)] false).countP
      (fun c => c.type == "Removed" && c.element == "X") = 1 ∧
    (detect_breaking_changes [("X", ⟨"1..1", "T", true⟩), ("B", ⟨"0..1", "T", false⟩)]
        [("Y", ⟨"1..1", "T", true⟩), ("B", ⟨"0..1", "T", false⟩)] false).countP
      (fun c => c.type == "New" && c.element == "Y") = 1 ∧
    (detect_breaking_changes [("X", ⟨"1..1", "T", true⟩), ("B", ⟨"0..1", "T", false⟩)]
        [("Y", ⟨"1..1", "T", true⟩), ("B", ⟨"0..1", "T", false⟩)] false).countP
      (fun c => c.type == "Changed" && c.element == "B") = 0 :=
  ⟨(c5_amended [("X", ⟨"1..1", "T", true⟩), ("B", ⟨"0..1", "T", false⟩)]
      [("Y", ⟨"1..1", "T", true⟩), ("B", ⟨"0..1", "T", false⟩)] "X"
      ⟨"1..1", "T", true⟩ ⟨"1..1", "T", true⟩).1 (by decide) (by decide) (by decide),
   (c5_amended [("X", ⟨"1..1", "T", true⟩), ("B", ⟨"0..1", "T", false⟩)]
      [("Y", ⟨"1..1", "T", true⟩), ("B", ⟨"0..1", "T", false⟩)] "Y"
      ⟨"1..1", "T", true⟩ ⟨"1..1", "T", true⟩).2.1 (by decide) (by decide) (by decide),
   (c5_amended [("X", ⟨"1..1", "T", true⟩), ("B", ⟨"0..1", "T", false⟩)]
      [("Y", ⟨"1..1", "T", true⟩), ("B", ⟨"0..1", "T", false⟩)] "B"
      ⟨"0..1", "T", false⟩ ⟨"0..1", "T", false⟩).2.2 (by decide) (by decide) (by decide)
      (by decide)⟩

/-- Counterexample to C6 as stated: take the change list with
`Removed("A")` and `Removed("A.B")` and `P := "A.B"`.  The list contains
a `Removed` record whose path equals `P`, and the claim says a record
whose path equals `P` is kept; but the record is dropped, because it is
a strict dotted descendant of the other removed path `A`. -/
theorem c6_counterexample :
    ((⟨"CRITICAL", "Removed", "A.B", "CRITICAL: Mandatory element removed!"⟩ : Change) ∈
      ([⟨"CRITICAL", "Removed", "A", "CRITICAL: Mandatory element removed!"⟩,
        ⟨"CRITICAL", "Removed", "A.B", "CRITICAL: Mandatory element removed!"⟩] :
        List Change)) ∧
    suppress_child_changes
        [⟨"CRITICAL", "Removed", "A", "CRITICAL: Mandatory element removed!"⟩,
         ⟨"CRITICAL", "Removed", "A.B", "CRITICAL: Mandatory element removed!"⟩] =
      [⟨"CRITICAL", "Removed", "A", "CRITICAL: Mandatory element removed!"⟩] := by
  decide

/-- C6 (amended): a record survives child suppression exactly when its
path is not a strict dotted descendant of the path of any
`Removed`/`New` record of the list; consequently every strict dotted
descendant of such a path `P` is absent from the result (a record whose
path equals `P` itself is kept unless it descends from a different
removed or new path); in particular, from `Removed("A")` and
`Changed("A.B")` only `Removed("A")` remains. -/
theorem c6_amended : ∀ (changes : List Change) (c : Change),
    (c ∈ suppress_child_changes changes ↔
      c ∈ changes ∧ ∀ parent ∈ removedOrNewOf changes,
        isPre (parent.data ++ ['.']) c.element.data = false) ∧
    (∀ (P : String) (rec : Change), rec ∈ changes →
      (rec.type = "Removed" ∨ rec.type = "New") → rec.element = P →
      c ∈ suppress_child_changes changes →
      isPre (P.data ++ ['.']) c.element.data = false) ∧
    suppress_child_changes
        [⟨"CRITICAL", "Removed", "A", "r"⟩, ⟨"INFO", "Changed", "A.B", "c"⟩] =
      [⟨"CRITICAL", "Removed", "A", "r"⟩] := by
  intro changes c
  refine ⟨mem_suppress, ?_, by decide⟩
  intro P rec hrec htype helem hc
  refine (mem_suppress.1 hc).2 P ?_
  rw [removedOrNewOf]
  rw [← helem]
  refine List.mem_map_of_mem _ ?_
  rw [List.mem_filter]
  exact ⟨hrec, by
    rcases htype with h | h <;> simp [h]⟩

/-- Witness for C6 (amended): the surviving record `Removed("A")` is not
a strict descendant of the reported path `A`. -/
theorem c6_amended_witness :
    isPre ("A".data ++ ['.']) "A".data = false :=
  (c6_amended [⟨"CRITICAL", "Removed", "A", "r"⟩]
      ⟨"CRITICAL", "Removed", "A", "r"⟩).2.1 "A" ⟨"CRITICAL", "Removed", "A", "r"⟩
    (by decide) (Or.inl rfl) rfl (by decide)

/-- Counterexample to C8 as stated: the row below satisfies all the
validity conditions listed in the claim (4 cells, a non-empty element
name, and a marker depth of 1 that cannot jump), yet its element name is
the single dot, so the emitted path `.` has 2 dot-separated segments
instead of 1, and both segments are empty. -/
theorem c8_counterexample :
    rowKey [⟨1, some ".", [], ""⟩, ⟨0, none, [], ""⟩, ⟨0, none, [], "0..1"⟩,
        ⟨0, none, [], "T"⟩] = some (1, ".") ∧
    ("." : String) ≠ "" ∧
    emitTraceFrom []
        [[⟨1, some ".", [], ""⟩, ⟨0, none, [], ""⟩, ⟨0, none, [], "0..1"⟩,
          ⟨0, none, [], "T"⟩]] = [(1, ".", ⟨"0..1", "T", false⟩)] ∧
    (pathSegments ".").length = 2 ∧ "" ∈ pathSegments "." := by
  decide

/-- C8 (amended): for a hierarchy table that is valid in the sense of
`validFrom` — rows accepted by the extractor never jump more than one
level below the deepest live ancestor AND element names contain no dot —
every emitted path has exactly its marker-derived depth many
dot-separated segments, none of them empty; and every key of the
returned mapping is the path of some emission. -/
theorem c8_amended : ∀ (rows : List Row), validFrom 0 rows = true →
    (∀ (d : Nat) (p : String) (r : ElemRecord), (d, p, r) ∈ emitTraceFrom [] rows →
      (pathSegments p).length = d ∧ "" ∉ pathSegments p) ∧
    (∀ p : String, hasKey (parse_snapshot_table rows) p = true →
      ∃ d r, (d, p, r) ∈ emitTraceFrom [] rows) := by
  intro rows hv
  exact ⟨fun d p r hm =>
      trace_good rows [] hv (fun s hs => absurd hs (List.not_mem_nil s)) d p r hm,
    fun p hp => parse_hasKey_trace hp⟩

/-- Witness for C8 (amended) at a concrete two-row table
(`Patient` at depth 1, `name` at depth 2). -/
theorem c8_amended_witness :
    (pathSegments "Patient.name").length = 2 ∧ "" ∉ pathSegments "Patient.name" :=
  (c8_amended
      [[⟨1, some "Patient", [], ""⟩, ⟨0, none, [], ""⟩, ⟨0, none, [], "0..*"⟩,
        ⟨0, none, [], "Patient"⟩],
       [⟨2, some "name", [], ""⟩, ⟨0, none, [], ""⟩, ⟨0, none, [], "1..1"⟩,
        ⟨0, none, [], "HumanName"⟩]] (by decide)).1 2 "Patient.name"
    ⟨"1..1", "HumanName", true⟩ (by decide)

end MergeHtml
